import Mathlib

/-!
Verification of `src/utils/file_system.rs` from minecraft-datapack-generator.

The source defines a trait `Entry` with `create(&self, path) -> io::Result<()>`,
a blanket implementation for any `File` (i.e. `Display`) value that writes the
value's rendering into a freshly created file (`fs::File::create_new`), and an
implementation for `Directory = HashMap<OsString, Box<dyn Entry>>` that creates
the directory (`create_dir`) and then recursively creates every child at
`path.join(name)`, propagating the first error with `?`.

The embedding models paths as lists of segments, the filesystem as an
association list from paths to objects, and `create` as a state-passing
function that always returns the (possibly partially updated) filesystem
together with an optional error, mirroring the ambient mutable filesystem of
the Rust code.
-/

namespace FileSystem

/-- A filesystem path, as its list of segments; `path.join(name)` is
`p ++ [name]` and the parent of a non-root path is `p.dropLast`. -/
abbrev Path := List String

/-- An on-disk object: a regular file with its textual contents, or a
directory. -/
inductive FSObj : Type where
  | file (contents : String) : FSObj
  | dir : FSObj
deriving DecidableEq, Repr

/-- The filesystem state: an association list from paths to objects.  Fresh
objects are consed onto the front. -/
abbrev FS := List (Path × FSObj)

/-- Look up the object recorded at a path (first match wins). -/
def FS.lookup : FS → Path → Option FSObj
  | [], _ => none
  | (q, o) :: rest, p => if q = p then some o else FS.lookup rest p

/-- The two error conditions the embedding can produce, corresponding to
`ErrorKind::AlreadyExists` for `create_new`/`create_dir` on an existing path
and `ErrorKind::NotFound` for a missing parent directory. -/
inductive IOError : Type where
  | alreadyExists : IOError
  | notFound : IOError
deriving DecidableEq, Repr

/-- Semantics shared by `fs::File::create_new` and `fs::create_dir`: fail with
`alreadyExists` if the path is taken, fail with `notFound` unless the parent
is an existing directory, otherwise record the new object.  On failure the
filesystem is returned unchanged. -/
def createNew (p : Path) (o : FSObj) (fs : FS) : Option IOError × FS :=
  match FS.lookup fs p with
  | some _ => (some IOError.alreadyExists, fs)
  | none =>
    match FS.lookup fs p.dropLast with
    | some FSObj.dir => (none, (p, o) :: fs)
    | _ => (some IOError.notFound, fs)

/-- The in-memory tree of `Entry` values: the `File` blanket implementation is
represented by the rendered text its `Display` implementation would write, and
a `Directory` by its list of `(name, child)` pairs — the `HashMap`, whose
iteration order is unspecified; permutation invariance is proved below. -/
inductive Entry : Type where
  | file (rendered : String) : Entry
  | dir (children : List (String × Entry)) : Entry

mutual

/-- `Entry::create`: for a `File`, `fs::File::create_new(path)?` then write the
rendering; for a `Directory`, `create_dir(path)?` then create every child at
`path.join(name)`, stopping at the first error (`?`). -/
def Entry.create : Entry → Path → FS → Option IOError × FS
  | Entry.file t, p, fs => createNew p (FSObj.file t) fs
  | Entry.dir cs, p, fs =>
    match createNew p FSObj.dir fs with
    | (some e, fs1) => (some e, fs1)
    | (none, fs1) => createList cs p fs1

/-- The `for (name, entry) in self` loop of `Directory::create`: create each
child in turn, propagating the first error. -/
def createList : List (String × Entry) → Path → FS → Option IOError × FS
  | [], _, fs => (none, fs)
  | (n, c) :: rest, p, fs =>
    match Entry.create c (p ++ [n]) fs with
    | (some e, fs1) => (some e, fs1)
    | (none, fs1) => createList rest p fs1

end

mutual

/-- Flatten an entry into the sequence of primitive creations it performs, in
execution order: a file is one step; a directory is its own step followed,
depth-first, by the steps of its children. -/
def Entry.plan : Entry → Path → List (Path × FSObj)
  | Entry.file t, p => [(p, FSObj.file t)]
  | Entry.dir cs, p => (p, FSObj.dir) :: planList cs p

/-- The primitive steps of a directory's children, in iteration order. -/
def planList : List (String × Entry) → Path → List (Path × FSObj)
  | [], _ => []
  | (n, c) :: rest, p => Entry.plan c (p ++ [n]) ++ planList rest p

end

/-- Execute a sequence of primitive creations in order, stopping at the first
failure; `Entry.create` is proved below to coincide with `run` of its plan. -/
def run : List (Path × FSObj) → FS → Option IOError × FS
  | [], fs => (none, fs)
  | (p, o) :: rest, fs =>
    match createNew p o fs with
    | (some e, fs1) => (some e, fs1)
    | (none, fs1) => run rest fs1

mutual

/-- The nesting depth of an entry tree: the maximal number of nested
`Entry::create` frames its creation requires. -/
def Entry.depth : Entry → Nat
  | Entry.file _ => 1
  | Entry.dir cs => listDepth cs + 1

/-- The maximal depth among a directory's children (0 for no children). -/
def listDepth : List (String × Entry) → Nat
  | [] => 0
  | (_, c) :: rest => max (Entry.depth c) (listDepth rest)

end

mutual

/-- `Entry.create` with an explicit bound on the recursion depth: `none` means
the bound was exhausted.  Fuel equal to the tree depth is proved sufficient,
making the well-foundedness of the recursion explicit. -/
def createFuel : Nat → Entry → Path → FS → Option (Option IOError × FS)
  | 0, _, _, _ => none
  | Nat.succ _, Entry.file t, p, fs => some (createNew p (FSObj.file t) fs)
  | Nat.succ fuel, Entry.dir cs, p, fs =>
    match createNew p FSObj.dir fs with
    | (some e, fs1) => some (some e, fs1)
    | (none, fs1) => createListFuel fuel cs p fs1

/-- Fuel-bounded version of `createList`; children are one recursion level
deeper, siblings are at the same level. -/
def createListFuel : Nat → List (String × Entry) → Path → FS → Option (Option IOError × FS)
  | _, [], _, fs => some (none, fs)
  | fuel, (n, c) :: rest, p, fs =>
    match createFuel fuel c (p ++ [n]) fs with
    | none => none
    | some (some e, fs1) => some (some e, fs1)
    | some (none, fs1) => createListFuel fuel rest p fs1

end

theorem FS.lookup_append (a b : FS) (q : Path) :
    FS.lookup (a ++ b) q = (FS.lookup a q).or (FS.lookup b q) := by
  induction a with
  | nil => simp [FS.lookup]
  | cons x rest ih =>
    obtain ⟨k, o⟩ := x
    by_cases h : k = q <;> simp [FS.lookup, h, ih]

theorem FS.lookup_eq_none (l : FS) (q : Path) :
    FS.lookup l q = none ↔ ∀ x ∈ l, x.1 ≠ q := by
  induction l with
  | nil => simp [FS.lookup]
  | cons x rest ih =>
    obtain ⟨k, o⟩ := x
    by_cases h : k = q
    · subst h
      simp only [FS.lookup, if_pos rfl, List.mem_cons]
      constructor
      · intro hh; exact Option.noConfusion hh
      · intro hh; exact absurd rfl (hh (k, o) (Or.inl rfl))
    · simp only [FS.lookup, if_neg h, List.mem_cons, ih]
      constructor
      · rintro hh x (rfl | hx)
        · exact h
        · exact hh x hx
      · intro hh x hx; exact hh x (Or.inr hx)

theorem FS.mem_of_lookup_eq_some {l : FS} {q : Path} {o : FSObj}
    (h : FS.lookup l q = some o) : q ∈ l.map Prod.fst := by
  by_contra hq
  rw [(FS.lookup_eq_none l q).mpr (fun x hx hxq => hq (List.mem_map.mpr ⟨x, hx, hxq⟩))] at h
  exact Option.noConfusion h

theorem FS.lookup_eq_none_of_not_mem {l : FS} {q : Path}
    (h : q ∉ l.map Prod.fst) : FS.lookup l q = none :=
  (FS.lookup_eq_none l q).mpr fun x hx hxq => h (List.mem_map.mpr ⟨x, hx, hxq⟩)

theorem createNew_eq_ok {p : Path} {o : FSObj} {fs fs1 : FS}
    (h : createNew p o fs = (none, fs1)) :
    FS.lookup fs p = none ∧ FS.lookup fs p.dropLast = some FSObj.dir ∧
      fs1 = (p, o) :: fs := by
  unfold createNew at h
  cases h1 : FS.lookup fs p with
  | some o' => rw [h1] at h; exact Option.noConfusion (congrArg Prod.fst h)
  | none =>
    rw [h1] at h
    cases h2 : FS.lookup fs p.dropLast with
    | none => rw [h2] at h; exact Option.noConfusion (congrArg Prod.fst h)
    | some o2 =>
      cases o2 with
      | file t => rw [h2] at h; exact Option.noConfusion (congrArg Prod.fst h)
      | dir =>
        rw [h2] at h
        exact ⟨rfl, rfl, (congrArg Prod.snd h).symm⟩

theorem createNew_eq_err {p : Path} {o : FSObj} {fs fs1 : FS} {e : IOError}
    (h : createNew p o fs = (some e, fs1)) : fs1 = fs := by
  unfold createNew at h
  cases h1 : FS.lookup fs p with
  | some o' => rw [h1] at h; exact (congrArg Prod.snd h).symm
  | none =>
    rw [h1] at h
    cases h2 : FS.lookup fs p.dropLast with
    | none => rw [h2] at h; exact (congrArg Prod.snd h).symm
    | some o2 =>
      cases o2 with
      | file t => rw [h2] at h; exact (congrArg Prod.snd h).symm
      | dir => rw [h2] at h; exact Option.noConfusion (congrArg Prod.fst h)

theorem createNew_of_fresh {p : Path} {fs : FS} (o : FSObj)
    (h1 : FS.lookup fs p = none) (h2 : FS.lookup fs p.dropLast = some FSObj.dir) :
    createNew p o fs = (none, (p, o) :: fs) := by
  unfold createNew
  rw [h1, h2]

theorem run_append_ok {a : List (Path × FSObj)} {fs fs1 : FS} (b : List (Path × FSObj))
    (h : run a fs = (none, fs1)) : run (a ++ b) fs = run b fs1 := by
  induction a generalizing fs with
  | nil =>
    have : fs = fs1 := congrArg Prod.snd h
    rw [List.nil_append, this]
  | cons x rest ih =>
    obtain ⟨p, o⟩ := x
    simp only [run, List.cons_append] at h ⊢
    split at h
    next e2 fs2 hc => exact absurd h (by simp)
    next fs2 hc => exact ih h

theorem run_append_err {a : List (Path × FSObj)} {fs fs1 : FS} {e : IOError}
    (b : List (Path × FSObj)) (h : run a fs = (some e, fs1)) :
    run (a ++ b) fs = (some e, fs1) := by
  induction a generalizing fs with
  | nil => exact absurd h (by simp [run])
  | cons x rest ih =>
    obtain ⟨p, o⟩ := x
    simp only [run, List.cons_append] at h ⊢
    split at h
    next e2 fs2 hc => exact h
    next fs2 hc => exact ih h

theorem run_ok_state {l : List (Path × FSObj)} {fs fs1 : FS}
    (h : run l fs = (none, fs1)) : fs1 = l.reverse ++ fs := by
  induction l generalizing fs with
  | nil => simpa using (congrArg Prod.snd h).symm
  | cons x rest ih =>
    obtain ⟨p, o⟩ := x
    simp only [run] at h
    split at h
    next e2 fs2 hc => exact absurd h (by simp)
    next fs2 hc =>
      obtain ⟨h1, h2, rfl⟩ := createNew_eq_ok hc
      rw [ih h]
      simp

theorem run_ok_fresh {l : List (Path × FSObj)} {fs fs1 : FS}
    (h : run l fs = (none, fs1)) :
    ∀ q ∈ l.map Prod.fst, FS.lookup fs q = none := by
  induction l generalizing fs with
  | nil => intro q hq; simp at hq
  | cons x rest ih =>
    obtain ⟨p, o⟩ := x
    simp only [run] at h
    split at h
    next e2 fs2 hc => exact absurd h (by simp)
    next fs2 hc =>
      obtain ⟨h1, h2, rfl⟩ := createNew_eq_ok hc
      intro q hq
      simp only [List.map_cons, List.mem_cons] at hq
      rcases hq with rfl | hq'
      · exact h1
      · have hcons := ih h q hq'
        simp only [FS.lookup] at hcons
        by_cases hpq : p = q
        · rw [if_pos hpq] at hcons; exact Option.noConfusion hcons
        · rwa [if_neg hpq] at hcons

theorem run_ok_nodup {l : List (Path × FSObj)} {fs fs1 : FS}
    (h : run l fs = (none, fs1)) : (l.map Prod.fst).Nodup := by
  induction l generalizing fs with
  | nil => simp
  | cons x rest ih =>
    obtain ⟨p, o⟩ := x
    simp only [run] at h
    split at h
    next e2 fs2 hc => exact absurd h (by simp)
    next fs2 hc =>
      obtain ⟨h1, h2, rfl⟩ := createNew_eq_ok hc
      simp only [List.map_cons, List.nodup_cons]
      refine ⟨fun hmem => ?_, ih h⟩
      have := run_ok_fresh h p hmem
      simp only [FS.lookup, if_pos rfl] at this
      exact Option.noConfusion this

theorem run_transfer {l : List (Path × FSObj)} {fsA fsB : FS}
    (h : (run l fsA).1 = none)
    (hfr : ∀ q ∈ l.map Prod.fst, FS.lookup fsB q = none)
    (hpar : ∀ q ∈ l.map Prod.fst, FS.lookup fsB q.dropLast = FS.lookup fsA q.dropLast) :
    (run l fsB).1 = none := by
  induction l generalizing fsA fsB with
  | nil => rfl
  | cons x rest ih =>
    obtain ⟨p, o⟩ := x
    have hp : p ∈ ((p, o) :: rest).map Prod.fst := List.mem_cons_self _ _
    simp only [run] at h ⊢
    split at h
    next e2 fs2 hc => exact absurd h (by simp)
    next fs2 hc =>
      obtain ⟨h1, h2, rfl⟩ := createNew_eq_ok hc
      have hokB : createNew p o fsB = (none, (p, o) :: fsB) :=
        createNew_of_fresh o (hfr p hp) (by rw [hpar p hp, h2])
      rw [hokB]
      have hfull : run rest ((p, o) :: fsA) = (none, (run rest ((p, o) :: fsA)).2) := by
        rw [← h]
      have hnodup : p ∉ rest.map Prod.fst := by
        intro hmem
        have hlk := run_ok_fresh hfull p hmem
        simp only [FS.lookup, if_pos rfl] at hlk
        exact Option.noConfusion hlk
      apply ih h
      · intro q hq
        have hne : p ≠ q := fun hpq => hnodup (hpq ▸ hq)
        simp only [FS.lookup, if_neg hne]
        exact hfr q (List.mem_cons_of_mem _ hq)
      · intro q hq
        by_cases hpq : p = q.dropLast
        · simp only [FS.lookup, if_pos hpq]
        · simp only [FS.lookup, if_neg hpq]
          exact hpar q (List.mem_cons_of_mem _ hq)

theorem run_congr {l : List (Path × FSObj)} {fsA fsB : FS}
    (h : ∀ q, FS.lookup fsA q = FS.lookup fsB q) :
    (run l fsA).1 = (run l fsB).1 ∧
      ∀ q, FS.lookup (run l fsA).2 q = FS.lookup (run l fsB).2 q := by
  induction l generalizing fsA fsB with
  | nil => exact ⟨rfl, h⟩
  | cons x rest ih =>
    obtain ⟨p, o⟩ := x
    simp only [run, createNew, ← h p, ← h p.dropLast]
    cases h1 : FS.lookup fsA p with
    | some o' => exact ⟨rfl, h⟩
    | none =>
      cases h2 : FS.lookup fsA p.dropLast with
      | none => exact ⟨rfl, h⟩
      | some o2 =>
        cases o2 with
        | file t => exact ⟨rfl, h⟩
        | dir =>
          apply ih
          intro q
          by_cases hpq : p = q <;> simp only [FS.lookup, if_pos, if_neg, hpq, h q]

mutual

theorem create_eq_run (e : Entry) (p : Path) (fs : FS) :
    Entry.create e p fs = run (Entry.plan e p) fs := by
  cases e with
  | file t =>
    simp only [Entry.create, Entry.plan, run]
    cases hc : createNew p (FSObj.file t) fs with
    | mk r f => cases r <;> rfl
  | dir cs =>
    simp only [Entry.create, Entry.plan, run]
    cases hc : createNew p FSObj.dir fs with
    | mk r f =>
      cases r with
      | some e => rfl
      | none => exact createList_eq_run cs p f

theorem createList_eq_run (cs : List (String × Entry)) (p : Path) (fs : FS) :
    createList cs p fs = run (planList cs p) fs := by
  cases cs with
  | nil => rfl
  | cons x rest =>
    obtain ⟨n, c⟩ := x
    simp only [createList, planList]
    cases hc : Entry.create c (p ++ [n]) fs with
    | mk r f =>
      have hrun : run (Entry.plan c (p ++ [n])) fs = (r, f) := by
        rw [← create_eq_run, hc]
      cases r with
      | some e => rw [run_append_err _ hrun]
      | none => rw [run_append_ok _ hrun]; exact createList_eq_run rest p f

end

mutual

theorem plan_key_below (e : Entry) (p : Path) : ∀ x ∈ Entry.plan e p, p <+: x.1 := by
  cases e with
  | file t =>
    intro x hx
    simp only [Entry.plan, List.mem_singleton] at hx
    rw [hx]
  | dir cs =>
    intro x hx
    simp only [Entry.plan, List.mem_cons] at hx
    rcases hx with rfl | hx
    · exact List.prefix_rfl
    · obtain ⟨nc, _, hpre⟩ := planList_key_below cs p x hx
      exact (List.prefix_append p [nc.1]).trans hpre

theorem planList_key_below (cs : List (String × Entry)) (p : Path) :
    ∀ x ∈ planList cs p, ∃ nc, nc ∈ cs ∧ (p ++ [nc.1]) <+: x.1 := by
  cases cs with
  | nil => intro x hx; simp [planList] at hx
  | cons y rest =>
    obtain ⟨n, c⟩ := y
    intro x hx
    simp only [planList, List.mem_append] at hx
    rcases hx with hx | hx
    · exact ⟨(n, c), List.mem_cons_self _ _, plan_key_below c (p ++ [n]) x hx⟩
    · obtain ⟨nc, hnc, hpre⟩ := planList_key_below rest p x hx
      exact ⟨nc, List.mem_cons_of_mem _ hnc, hpre⟩

end

theorem plan_root (e : Entry) (p : Path) :
    ∃ o rest, Entry.plan e p = (p, o) :: rest := by
  cases e with
  | file t => exact ⟨FSObj.file t, [], rfl⟩
  | dir cs => exact ⟨FSObj.dir, planList cs p, rfl⟩

theorem root_mem_plan_keys (e : Entry) (p : Path) :
    p ∈ (Entry.plan e p).map Prod.fst := by
  obtain ⟨o, rest, hor⟩ := plan_root e p
  rw [hor]
  exact List.mem_cons_self _ _

theorem root_mem_planList_keys (cs : List (String × Entry)) (p : Path) :
    ∀ nc ∈ cs, (p ++ [nc.1]) ∈ (planList cs p).map Prod.fst := by
  induction cs with
  | nil => intro nc hnc; simp at hnc
  | cons y rest ih =>
    obtain ⟨n, c⟩ := y
    intro nc hnc
    simp only [planList, List.map_append, List.mem_append]
    rcases List.mem_cons.mp hnc with heq | hnc
    · subst heq
      exact Or.inl (root_mem_plan_keys c (p ++ [n]))
    · exact Or.inr (ih nc hnc)

theorem nodup_names_of_nodup_keys {cs : List (String × Entry)} {p : Path}
    (h : ((planList cs p).map Prod.fst).Nodup) : (cs.map Prod.fst).Nodup := by
  induction cs with
  | nil => simp
  | cons y rest ih =>
    obtain ⟨n, c⟩ := y
    simp only [planList, List.map_append] at h
    simp only [List.map_cons, List.nodup_cons]
    refine ⟨fun hmem => ?_, ih h.of_append_right⟩
    obtain ⟨nc, hnc, hn⟩ := List.mem_map.mp hmem
    have h1 : (p ++ [n]) ∈ (Entry.plan c (p ++ [n])).map Prod.fst :=
      root_mem_plan_keys c (p ++ [n])
    have h2 : (p ++ [n]) ∈ (planList rest p).map Prod.fst := by
      have := root_mem_planList_keys rest p nc hnc
      rwa [hn] at this
    exact List.disjoint_of_nodup_append h h1 h2

theorem below_extend {p : Path} {n : String} {z : Path} (h : p ++ [n] <+: z) :
    ∃ t, z = p ++ n :: t := by
  obtain ⟨t, ht⟩ := h
  exact ⟨t, by rw [← ht]; simp⟩

theorem not_parent_below {p : Path} {n : String} : ¬ (p ++ [n] <+: p) := by
  intro h
  have := h.length_le
  simp at this

theorem below_ne_of_names_ne {p : Path} {n1 n2 : String} (hne : n1 ≠ n2) {z : Path}
    (h1 : p ++ [n1] <+: z) (h2 : p ++ [n2] <+: z) : False := by
  have hlen : (p ++ [n1]).length ≤ (p ++ [n2]).length := by simp
  have hpre : p ++ [n1] <+: p ++ [n2] := List.prefix_of_prefix_length_le h1 h2 hlen
  have heq : p ++ [n1] = p ++ [n2] := hpre.eq_of_length (by simp)
  exact hne (by simpa using heq)

theorem run_state_extends (l : List (Path × FSObj)) (fs : FS) :
    ∃ add, (run l fs).2 = add ++ fs := by
  induction l generalizing fs with
  | nil => exact ⟨[], rfl⟩
  | cons x rest ih =>
    obtain ⟨p, o⟩ := x
    simp only [run]
    split
    next e2 fs2 hc => exact ⟨[], by simp [createNew_eq_err hc]⟩
    next fs2 hc =>
      obtain ⟨h1, h2, rfl⟩ := createNew_eq_ok hc
      obtain ⟨add, ha⟩ := ih ((p, o) :: fs)
      exact ⟨add ++ [(p, o)], by rw [ha]; simp⟩

theorem create_state_extends (e : Entry) (p : Path) (fs : FS) :
    ∃ add, (Entry.create e p fs).2 = add ++ fs := by
  rw [create_eq_run]
  exact run_state_extends _ _

theorem createList_state_extends (cs : List (String × Entry)) (p : Path) (fs : FS) :
    ∃ add, (createList cs p fs).2 = add ++ fs := by
  rw [createList_eq_run]
  exact run_state_extends _ _

theorem planList_append (cs1 cs2 : List (String × Entry)) (p : Path) :
    planList (cs1 ++ cs2) p = planList cs1 p ++ planList cs2 p := by
  induction cs1 with
  | nil => simp [planList]
  | cons x rest ih =>
    obtain ⟨n, c⟩ := x
    simp [planList, ih, List.append_assoc]

theorem createList_append_ok (cs2 : List (String × Entry)) {cs1 : List (String × Entry)}
    {p : Path} {fs fs1 : FS} (h : createList cs1 p fs = (none, fs1)) :
    createList (cs1 ++ cs2) p fs = createList cs2 p fs1 := by
  rw [createList_eq_run] at h
  rw [createList_eq_run, planList_append, run_append_ok _ h, createList_eq_run]

theorem run_append_split {a b : List (Path × FSObj)} {fs0 fs1 : FS}
    (h : run (a ++ b) fs0 = (none, fs1)) :
    ∃ fsm, run a fs0 = (none, fsm) ∧ run b fsm = (none, fs1) := by
  cases hra : run a fs0 with
  | mk r f =>
    cases r with
    | some e =>
      rw [run_append_err b hra] at h
      exact absurd h (by simp)
    | none =>
      rw [run_append_ok b hra] at h
      exact ⟨f, rfl, h⟩

theorem not_mem_planList_keys_of_name_not_mem {l : List (String × Entry)} {p : Path}
    {n : String} {q : Path} (hq : p ++ [n] <+: q) (hn : n ∉ l.map Prod.fst) :
    q ∉ (planList l p).map Prod.fst := by
  intro hmem
  obtain ⟨x, hx, hxq⟩ := List.mem_map.mp hmem
  obtain ⟨nc, hnc, hpre⟩ := planList_key_below l p x hx
  rw [hxq] at hpre
  by_cases hnn : nc.1 = n
  · exact hn (by rw [← hnn]; exact List.mem_map.mpr ⟨nc, hnc, rfl⟩)
  · exact below_ne_of_names_ne hnn hpre hq

theorem root_not_mem_planList_keys (cs : List (String × Entry)) (p : Path) :
    p ∉ (planList cs p).map Prod.fst := by
  intro hmem
  obtain ⟨x, hx, hxq⟩ := List.mem_map.mp hmem
  obtain ⟨nc, _, hpre⟩ := planList_key_below cs p x hx
  rw [hxq] at hpre
  exact not_parent_below hpre

theorem lookup_reverse_eq_none {l : FS} {q : Path} (h : q ∉ l.map Prod.fst) :
    FS.lookup l.reverse q = none := by
  apply FS.lookup_eq_none_of_not_mem
  rw [List.map_reverse, List.mem_reverse]
  exact h

/-- C1: creating a `File` entry with rendering `t` at a fresh path `p` whose
parent directory exists succeeds and leaves at `p` a file whose contents are
exactly `t` — the full rendering and nothing else — while every other path is
untouched. -/
theorem file_create_correct (t : String) (p : Path) (fs : FS)
    (hfresh : FS.lookup fs p = none)
    (hparent : FS.lookup fs p.dropLast = some FSObj.dir) :
    ∃ fs', Entry.create (Entry.file t) p fs = (none, fs') ∧
      FS.lookup fs' p = some (FSObj.file t) ∧
      ∀ q, q ≠ p → FS.lookup fs' q = FS.lookup fs q := by
  refine ⟨(p, FSObj.file t) :: fs, ?_, ?_, ?_⟩
  · simp only [Entry.create]
    exact createNew_of_fresh _ hfresh hparent
  · simp [FS.lookup]
  · intro q hq
    simp only [FS.lookup]
    rw [if_neg (fun h => hq h.symm)]

/-- Witness for C1: creating the file `"Hello World!"` at `tmp/test_file`
under an existing `tmp` directory. -/
theorem file_create_correct_witness :
    ∃ fs', Entry.create (Entry.file "Hello World!") ["tmp", "test_file"]
        [(["tmp"], FSObj.dir), ([], FSObj.dir)] = (none, fs') ∧
      FS.lookup fs' ["tmp", "test_file"] = some (FSObj.file "Hello World!") ∧
      ∀ q, q ≠ ["tmp", "test_file"] →
        FS.lookup fs' q = FS.lookup [(["tmp"], FSObj.dir), ([], FSObj.dir)] q :=
  file_create_correct "Hello World!" ["tmp", "test_file"]
    [(["tmp"], FSObj.dir), ([], FSObj.dir)] (by decide) (by decide)

/-- C3: `create` at an already-existing path fails with the already-exists
error for every kind of entry (file or directory), and the filesystem is
returned unchanged, so the pre-existing object at `p` is untouched. -/
theorem create_existing_path_fails (ent : Entry) (p : Path) (fs : FS) (o : FSObj)
    (h : FS.lookup fs p = some o) :
    Entry.create ent p fs = (some IOError.alreadyExists, fs) := by
  have hc : ∀ ob, createNew p ob fs = (some IOError.alreadyExists, fs) := by
    intro ob
    unfold createNew
    rw [h]
  cases ent with
  | file t => simp only [Entry.create]; exact hc _
  | dir cs => simp only [Entry.create]; rw [hc FSObj.dir]

/-- Witness for C3: creating a non-empty directory entry over the existing
`tmp` directory fails with `alreadyExists` and changes nothing. -/
theorem create_existing_path_fails_witness :
    Entry.create (Entry.dir [("a", Entry.file "x")]) ["tmp"]
        [(["tmp"], FSObj.dir), ([], FSObj.dir)]
      = (some IOError.alreadyExists, [(["tmp"], FSObj.dir), ([], FSObj.dir)]) :=
  create_existing_path_fails (Entry.dir [("a", Entry.file "x")]) ["tmp"]
    [(["tmp"], FSObj.dir), ([], FSObj.dir)] FSObj.dir (by decide)

/-- C8: creating a `Directory` entry at a fresh path whose parent directory
does not exist fails with the filesystem's `notFound` error, and the
filesystem is returned unchanged: the missing parent is never created
implicitly (`create_dir`, not `create_dir_all`, semantics). -/
theorem dir_create_missing_parent (cs : List (String × Entry)) (p : Path) (fs : FS)
    (hp : FS.lookup fs p = none)
    (hpar : FS.lookup fs p.dropLast = none) :
    Entry.create (Entry.dir cs) p fs = (some IOError.notFound, fs) := by
  have hc : createNew p FSObj.dir fs = (some IOError.notFound, fs) := by
    unfold createNew
    rw [hp, hpar]
  simp only [Entry.create]
  rw [hc]

/-- Witness for C8: creating a directory at `a/b` when `a` does not exist. -/
theorem dir_create_missing_parent_witness :
    Entry.create (Entry.dir []) ["a", "b"] [([], FSObj.dir)]
      = (some IOError.notFound, [([], FSObj.dir)]) :=
  dir_create_missing_parent [] ["a", "b"] [([], FSObj.dir)] (by decide) (by decide)

/-- C10: if creating the directory itself at `path` fails, `Directory::create`
returns that error immediately with the filesystem exactly as it was: zero
children are attempted (the result does not depend on `cs` at all) and no
object is gained under `path`. -/
theorem dir_create_root_failure (cs : List (String × Entry)) (p : Path) (fs fsf : FS)
    (e : IOError) (h : createNew p FSObj.dir fs = (some e, fsf)) :
    Entry.create (Entry.dir cs) p fs = (some e, fs) := by
  have hfs : fsf = fs := createNew_eq_err h
  simp only [Entry.create]
  rw [h, hfs]

/-- Witness for C10: the directory step fails with `alreadyExists` at the
taken path `tmp`, and the child list `[("a", file)]` is never attempted. -/
theorem dir_create_root_failure_witness :
    Entry.create (Entry.dir [("a", Entry.file "x")]) ["tmp"]
        [(["tmp"], FSObj.file "old"), ([], FSObj.dir)]
      = (some IOError.alreadyExists, [(["tmp"], FSObj.file "old"), ([], FSObj.dir)]) :=
  dir_create_root_failure [("a", Entry.file "x")] ["tmp"]
    [(["tmp"], FSObj.file "old"), ([], FSObj.dir)]
    [(["tmp"], FSObj.file "old"), ([], FSObj.dir)] IOError.alreadyExists (by decide)

/-- C4: when, inside `Directory::create`, the directory and the siblings
`cs₁` have been created and the next child `(n, c)` fails, the loop stops
immediately (the remaining children `cs₂` are never examined — the result does
not depend on them), the child's error is returned unwrapped, and the final
filesystem is exactly the failing child's state, which still extends the
earlier siblings' state `fs₁`, which itself extends the created directory:
nothing is rolled back. -/
theorem dir_child_failure (cs₁ cs₂ : List (String × Entry)) (n : String) (c : Entry)
    (p : Path) (fs fsd fs₁ fs₂ : FS) (e : IOError)
    (hdir : createNew p FSObj.dir fs = (none, fsd))
    (hpre : createList cs₁ p fsd = (none, fs₁))
    (hfail : Entry.create c (p ++ [n]) fs₁ = (some e, fs₂)) :
    Entry.create (Entry.dir (cs₁ ++ (n, c) :: cs₂)) p fs = (some e, fs₂) ∧
      (∃ add, fs₂ = add ++ fs₁) ∧
      (∃ addl, fs₁ = addl ++ fsd) ∧
      fsd = (p, FSObj.dir) :: fs := by
  obtain ⟨h1, h2, hshape⟩ := createNew_eq_ok hdir
  refine ⟨?_, ?_, ?_, hshape⟩
  · simp only [Entry.create]
    rw [hdir]
    show createList (cs₁ ++ (n, c) :: cs₂) p fsd = (some e, fs₂)
    rw [createList_append_ok _ hpre]
    show (match Entry.create c (p ++ [n]) fs₁ with
          | (some e, fs1) => (some e, fs1)
          | (none, fs1) => createList cs₂ p fs1) = (some e, fs₂)
    rw [hfail]
  · obtain ⟨add, ha⟩ := create_state_extends c (p ++ [n]) fs₁
    rw [hfail] at ha
    exact ⟨add, ha⟩
  · obtain ⟨addl, ha⟩ := createList_state_extends cs₁ p fsd
    rw [hpre] at ha
    exact ⟨addl, ha⟩

/-- Witness for C4: under `d`, sibling `a` is created, then child `b` fails
with `alreadyExists` because `d/b` is already taken; the directory `d` and the
file `d/a` remain. -/
theorem dir_child_failure_witness :
    Entry.create (Entry.dir ([("a", Entry.file "A")] ++ ("b", Entry.dir []) :: [("z", Entry.file "Z")]))
        ["d"] [(["d", "b"], FSObj.file "old"), ([], FSObj.dir)]
      = (some IOError.alreadyExists,
         [(["d", "a"], FSObj.file "A"), (["d"], FSObj.dir),
          (["d", "b"], FSObj.file "old"), ([], FSObj.dir)]) ∧
      (∃ add, [(["d", "a"], FSObj.file "A"), (["d"], FSObj.dir),
          (["d", "b"], FSObj.file "old"), ([], FSObj.dir)]
        = add ++ [(["d", "a"], FSObj.file "A"), (["d"], FSObj.dir),
          (["d", "b"], FSObj.file "old"), ([], FSObj.dir)]) ∧
      (∃ addl, [(["d", "a"], FSObj.file "A"), (["d"], FSObj.dir),
          (["d", "b"], FSObj.file "old"), ([], FSObj.dir)]
        = addl ++ [(["d"], FSObj.dir), (["d", "b"], FSObj.file "old"), ([], FSObj.dir)]) ∧
      [(["d"], FSObj.dir), (["d", "b"], FSObj.file "old"), ([], FSObj.dir)]
        = (["d"], FSObj.dir) :: [(["d", "b"], FSObj.file "old"), ([], FSObj.dir)] :=
  dir_child_failure [("a", Entry.file "A")] [("z", Entry.file "Z")] "b" (Entry.dir [])
    ["d"] [(["d", "b"], FSObj.file "old"), ([], FSObj.dir)]
    [(["d"], FSObj.dir), (["d", "b"], FSObj.file "old"), ([], FSObj.dir)]
    [(["d", "a"], FSObj.file "A"), (["d"], FSObj.dir),
     (["d", "b"], FSObj.file "old"), ([], FSObj.dir)]
    [(["d", "a"], FSObj.file "A"), (["d"], FSObj.dir),
     (["d", "b"], FSObj.file "old"), ([], FSObj.dir)]
    IOError.alreadyExists (by decide) (by decide) (by decide)

/-- C5: `Directory::create` coincides with running the primitive-step sequence
whose first step creates the directory at `path` itself and whose every later
step targets a strict descendant `path ++ n :: t`; `run` attempts steps in
order, so a child step can only be reached after the directory step succeeded,
and if the directory step fails the run stops there with that error and the
failing step's state. -/
theorem dir_parent_before_child (cs : List (String × Entry)) (p : Path) (fs : FS) :
    Entry.create (Entry.dir cs) p fs = run ((p, FSObj.dir) :: planList cs p) fs ∧
    (∀ x ∈ planList cs p, ∃ n t, x.1 = p ++ n :: t) ∧
    (∀ e fs', createNew p FSObj.dir fs = (some e, fs') →
      run ((p, FSObj.dir) :: planList cs p) fs = (some e, fs')) := by
  refine ⟨create_eq_run _ _ _, ?_, ?_⟩
  · intro x hx
    obtain ⟨nc, _, hpre⟩ := planList_key_below cs p x hx
    obtain ⟨t, ht⟩ := below_extend hpre
    exact ⟨nc.1, t, ht⟩
  · intro e fs' h
    simp only [run]
    rw [h]

theorem Entry.depth_pos (e : Entry) : 1 ≤ Entry.depth e := by
  cases e with
  | file t => exact le_refl 1
  | dir cs => simp [Entry.depth]

theorem fuel_adequate : ∀ fuel : Nat,
    (∀ e : Entry, ∀ p fs, Entry.depth e ≤ fuel →
        createFuel fuel e p fs = some (Entry.create e p fs)) ∧
    (∀ cs : List (String × Entry), ∀ p fs, listDepth cs ≤ fuel →
        createListFuel fuel cs p fs = some (createList cs p fs)) := by
  intro fuel
  induction fuel with
  | zero =>
    constructor
    · intro e p fs h
      have := Entry.depth_pos e
      omega
    · intro cs p fs h
      cases cs with
      | nil => rfl
      | cons x rest =>
        obtain ⟨n, c⟩ := x
        exfalso
        simp only [listDepth, Nat.max_le] at h
        have := Entry.depth_pos c
        omega
  | succ fuel ih =>
    obtain ⟨ihE, ihL⟩ := ih
    have hE : ∀ e : Entry, ∀ p fs, Entry.depth e ≤ fuel + 1 →
        createFuel (fuel + 1) e p fs = some (Entry.create e p fs) := by
      intro e p fs h
      cases e with
      | file t => rfl
      | dir cs =>
        simp only [Entry.depth] at h
        simp only [createFuel, Entry.create]
        cases hc : createNew p FSObj.dir fs with
        | mk r f =>
          cases r with
          | some e2 => rfl
          | none => exact ihL cs p f (by omega)
    refine ⟨hE, ?_⟩
    intro cs
    induction cs with
    | nil => intro p fs h; rfl
    | cons x rest ihrest =>
      obtain ⟨n, c⟩ := x
      intro p fs h
      simp only [listDepth, Nat.max_le] at h
      simp only [createListFuel, createList]
      rw [hE c (p ++ [n]) fs h.1]
      cases hc : Entry.create c (p ++ [n]) fs with
      | mk r f =>
        cases r with
        | some e2 => rfl
        | none => exact ihrest p f h.2

/-- C6: `create` is a total function on every finite entry tree: the
fuel-bounded `createFuel` with fuel equal to the tree's nesting depth
(`Entry.depth`) already computes exactly `Entry.create`'s result on every
input, so the recursion is well-founded, descends into strict subtrees, needs
recursion depth no more than the tree depth, and runs to completion returning
success or the first error. -/
theorem create_total_depth_fuel (e : Entry) (p : Path) (fs : FS) (fuel : Nat)
    (h : Entry.depth e ≤ fuel) :
    createFuel fuel e p fs = some (Entry.create e p fs) :=
  (fuel_adequate fuel).1 e p fs h

/-- Witness for C6: a two-level tree is fully computed with fuel 2. -/
theorem create_total_depth_fuel_witness :
    createFuel 2 (Entry.dir [("a", Entry.file "A")]) ["d"] [([], FSObj.dir)]
      = some (Entry.create (Entry.dir [("a", Entry.file "A")]) ["d"] [([], FSObj.dir)]) :=
  create_total_depth_fuel (Entry.dir [("a", Entry.file "A")]) ["d"] [([], FSObj.dir)] 2
    (by decide)

/-- C2: after a successful `Directory::create` of children `cs` at a fresh
path `p` (nothing strictly below `p` pre-exists in `fs`), the path `p` holds a
directory; every child `(n, c)` of the mapping is materialized below `p`
exactly as the independent run `c.create (p ++ [n])` on the minimal
filesystem holding only the directory `p` would produce it — the final state
agrees with that independent run on every path at or below `p ++ [n]` — and
nothing else is created under `p`: every occupied path strictly below `p`
lies at or below some child's root `p ++ [n]`. -/
theorem dir_create_correct (cs : List (String × Entry)) (p : Path) (fs fs' : FS)
    (hsub : ∀ x ∈ fs, p <+: x.1 → x.1 = p)
    (h : Entry.create (Entry.dir cs) p fs = (none, fs')) :
    FS.lookup fs' p = some FSObj.dir ∧
    (∀ n c, (n, c) ∈ cs →
      ∃ fsc, Entry.create c (p ++ [n]) [(p, FSObj.dir)] = (none, fsc) ∧
        ∀ q, (p ++ [n]) <+: q → FS.lookup fs' q = FS.lookup fsc q) ∧
    (∀ q, p <+: q → q ≠ p → FS.lookup fs' q ≠ none →
      ∃ nc ∈ cs, (p ++ [nc.1]) <+: q) := by
  simp only [Entry.create] at h
  split at h
  next e0 fsd hdir => exact absurd h (by simp)
  next fsd hdir =>
  obtain ⟨hp0, hpar0, rfl⟩ := createNew_eq_ok hdir
  rw [createList_eq_run] at h
  have hstate := run_ok_state h
  have hnodupK := run_ok_nodup h
  have hnames : (cs.map Prod.fst).Nodup := nodup_names_of_nodup_keys hnodupK
  refine ⟨?_, ?_, ?_⟩
  · -- p holds a directory
    rw [hstate, FS.lookup_append,
      lookup_reverse_eq_none (root_not_mem_planList_keys cs p)]
    simp [FS.lookup, Option.or]
  · -- each child matches its independent run
    intro n c hmem
    obtain ⟨l1, l2, rfl⟩ := List.append_of_mem hmem
    have hnames' := hnames
    rw [List.map_append, List.map_cons, List.nodup_append] at hnames'
    obtain ⟨hnd1, hnd2, hdisj⟩ := hnames'
    have hn1 : n ∉ l1.map Prod.fst := fun hm => hdisj hm (List.mem_cons_self _ _)
    have hn2 : n ∉ l2.map Prod.fst := (List.nodup_cons.mp hnd2).1
    rw [planList_append] at h
    obtain ⟨fsm1, hrun1, hrun2⟩ := run_append_split h
    have hrun2' : run (Entry.plan c (p ++ [n]) ++ planList l2 p) fsm1 = (none, fs') := hrun2
    obtain ⟨fsm2, hrunB, hrun3⟩ := run_append_split hrun2'
    have hsm1 : fsm1 = (planList l1 p).reverse ++ (p, FSObj.dir) :: fs := run_ok_state hrun1
    have hB1 : (run (Entry.plan c (p ++ [n])) fsm1).1 = none := by rw [hrunB]
    have hfrB : ∀ y ∈ (Entry.plan c (p ++ [n])).map Prod.fst,
        FS.lookup [(p, FSObj.dir)] y = none := by
      intro y hy
      obtain ⟨x, hx, hxy⟩ := List.mem_map.mp hy
      have hq2 : (p ++ [n]) <+: y := hxy ▸ plan_key_below c (p ++ [n]) x hx
      have hyp : p ≠ y := fun hpy => not_parent_below (hpy ▸ hq2)
      simp [FS.lookup, hyp]
    have hparB : ∀ y ∈ (Entry.plan c (p ++ [n])).map Prod.fst,
        FS.lookup [(p, FSObj.dir)] y.dropLast = FS.lookup fsm1 y.dropLast := by
      intro y hy
      obtain ⟨x, hx, hxy⟩ := List.mem_map.mp hy
      have hq2 : (p ++ [n]) <+: y := hxy ▸ plan_key_below c (p ++ [n]) x hx
      obtain ⟨t, rfl⟩ := below_extend hq2
      by_cases htnil : t = []
      · subst htnil
        have hdl : (p ++ n :: ([] : List String)).dropLast = p := List.dropLast_concat
        rw [hdl, hsm1, FS.lookup_append,
          lookup_reverse_eq_none (root_not_mem_planList_keys l1 p)]
        simp [FS.lookup, Option.or]
      · have hdl : (p ++ n :: t).dropLast = (p ++ [n]) ++ t.dropLast := by
          rw [List.dropLast_append_cons]
          cases t with
          | nil => exact absurd rfl htnil
          | cons a ts => simp
        rw [hdl]
        have hq2' : (p ++ [n]) <+: (p ++ [n]) ++ t.dropLast := List.prefix_append _ _
        have hnp : p ≠ (p ++ [n]) ++ t.dropLast := by
          intro hpy
          have hlen := congrArg List.length hpy
          simp [List.length_append] at hlen
        have hR1 : FS.lookup (planList l1 p).reverse ((p ++ [n]) ++ t.dropLast) = none :=
          lookup_reverse_eq_none (not_mem_planList_keys_of_name_not_mem hq2' hn1)
        have hRfs : FS.lookup fs ((p ++ [n]) ++ t.dropLast) = none := by
          rw [FS.lookup_eq_none]
          intro x2 hx2 hxq2
          have hppre : p <+: x2.1 := by
            rw [hxq2]
            exact (List.prefix_append p [n]).trans hq2'
          have hxp := hsub x2 hx2 hppre
          exact hnp (hxp.symm.trans hxq2)
        rw [hsm1, FS.lookup_append, hR1]
        simp only [FS.lookup, if_neg hnp, Option.or]
        exact hRfs.symm
    have hBok := run_transfer hB1 hfrB hparB
    have hBeta : run (Entry.plan c (p ++ [n])) [(p, FSObj.dir)]
        = (none, (run (Entry.plan c (p ++ [n])) [(p, FSObj.dir)]).2) := by
      rw [← hBok]
    have hBfull : run (Entry.plan c (p ++ [n])) [(p, FSObj.dir)]
        = (none, (Entry.plan c (p ++ [n])).reverse ++ [(p, FSObj.dir)]) := by
      rw [hBeta, run_ok_state hBeta]
    refine ⟨(Entry.plan c (p ++ [n])).reverse ++ [(p, FSObj.dir)], ?_, ?_⟩
    · rw [create_eq_run]
      exact hBfull
    · intro q hq
      have hnq : p ≠ q := fun hpq => not_parent_below (hpq ▸ hq)
      have hRq : FS.lookup fs q = none := by
        rw [FS.lookup_eq_none]
        intro x2 hx2 hxq2
        have hppre : p <+: x2.1 := by
          rw [hxq2]
          exact (List.prefix_append p [n]).trans hq
        have hxp := hsub x2 hx2 hppre
        exact hnq (hxp.symm.trans hxq2)
      have hq1rev : FS.lookup (planList l1 p).reverse q = none :=
        lookup_reverse_eq_none (not_mem_planList_keys_of_name_not_mem hq hn1)
      have hq2rev : FS.lookup (planList l2 p).reverse q = none :=
        lookup_reverse_eq_none (not_mem_planList_keys_of_name_not_mem hq hn2)
      have hstate' : fs' = (planList l2 p).reverse ++
          ((Entry.plan c (p ++ [n])).reverse ++
            ((planList l1 p).reverse ++ (p, FSObj.dir) :: fs)) := by
        rw [hstate, planList_append]
        simp [planList, List.reverse_append, List.append_assoc]
      rw [hstate', FS.lookup_append, hq2rev, FS.lookup_append, FS.lookup_append, hq1rev,
        FS.lookup_append]
      simp only [FS.lookup, if_neg hnq, hRq, Option.or]
  · -- nothing else under p
    intro q hpq hqp hsome
    cases ho : FS.lookup fs' q with
    | none => exact absurd ho hsome
    | some o =>
      have hmemq : q ∈ fs'.map Prod.fst := FS.mem_of_lookup_eq_some ho
      rw [hstate] at hmemq
      rw [List.map_append, List.map_reverse, List.map_cons] at hmemq
      rcases List.mem_append.mp hmemq with hmemq | hmemq
      · rw [List.mem_reverse] at hmemq
        obtain ⟨x, hx, hxq⟩ := List.mem_map.mp hmemq
        obtain ⟨nc, hnc, hpre⟩ := planList_key_below cs p x hx
        exact ⟨nc, hnc, hxq ▸ hpre⟩
      · rcases List.mem_cons.mp hmemq with hmemq | hmemq
        · exact absurd hmemq hqp
        · obtain ⟨x, hx, hxq⟩ := List.mem_map.mp hmemq
          have hxp := hsub x hx (by rw [hxq]; exact hpq)
          exact absurd (by rw [← hxp, hxq]) hqp

/-- Witness for C2: a directory with a file child `a` and an empty-directory
child `b`, created at `d` over the filesystem holding only the root. -/
theorem dir_create_correct_witness :
    FS.lookup [(["d", "b"], FSObj.dir), (["d", "a"], FSObj.file "a"),
        (["d"], FSObj.dir), ([], FSObj.dir)] ["d"] = some FSObj.dir ∧
    (∀ n c, (n, c) ∈ [("a", Entry.file "a"), ("b", Entry.dir [])] →
      ∃ fsc, Entry.create c (["d"] ++ [n]) [(["d"], FSObj.dir)] = (none, fsc) ∧
        ∀ q, (["d"] ++ [n]) <+: q →
          FS.lookup [(["d", "b"], FSObj.dir), (["d", "a"], FSObj.file "a"),
            (["d"], FSObj.dir), ([], FSObj.dir)] q = FS.lookup fsc q) ∧
    (∀ q, ["d"] <+: q → q ≠ ["d"] →
      FS.lookup [(["d", "b"], FSObj.dir), (["d", "a"], FSObj.file "a"),
        (["d"], FSObj.dir), ([], FSObj.dir)] q ≠ none →
      ∃ nc ∈ [("a", Entry.file "a"), ("b", Entry.dir [])], (["d"] ++ [nc.1]) <+: q) :=
  dir_create_correct [("a", Entry.file "a"), ("b", Entry.dir [])] ["d"]
    [([], FSObj.dir)]
    [(["d", "b"], FSObj.dir), (["d", "a"], FSObj.file "a"),
     (["d"], FSObj.dir), ([], FSObj.dir)]
    (by decide) (by decide)

theorem FS.lookup_append_eq_none {a b : FS} {q : Path}
    (h : FS.lookup (a ++ b) q = none) :
    FS.lookup a q = none ∧ FS.lookup b q = none := by
  rw [FS.lookup_append] at h
  cases ha : FS.lookup a q with
  | some o => rw [ha] at h; exact Option.noConfusion h
  | none =>
    rw [ha] at h
    exact ⟨rfl, by simpa [Option.or] using h⟩

theorem createList_congr {cs : List (String × Entry)} {p : Path} {fsA fsB : FS}
    (h : ∀ q, FS.lookup fsA q = FS.lookup fsB q) :
    (createList cs p fsA).1 = (createList cs p fsB).1 ∧
      ∀ q, FS.lookup (createList cs p fsA).2 q = FS.lookup (createList cs p fsB).2 q := by
  rw [createList_eq_run, createList_eq_run]
  exact run_congr h

theorem not_mem_plan_keys_parent {e : Entry} {nm : String} {p : Path} :
    p ∉ (Entry.plan e (p ++ [nm])).map Prod.fst := by
  intro hmem
  obtain ⟨w, hw, hwz⟩ := List.mem_map.mp hmem
  have hk := plan_key_below e (p ++ [nm]) w hw
  rw [hwz] at hk
  exact not_parent_below hk

theorem not_mem_plan_keys_other_name {e : Entry} {n1 n2 : String} {p : Path} {z : Path}
    (hne : n1 ≠ n2) (hz : p ++ [n2] <+: z) :
    z ∉ (Entry.plan e (p ++ [n1])).map Prod.fst := by
  intro hmem
  obtain ⟨w, hw, hwz⟩ := List.mem_map.mp hmem
  have hk := plan_key_below e (p ++ [n1]) w hw
  rw [hwz] at hk
  exact below_ne_of_names_ne hne hk hz

theorem createList_swap (x y : String × Entry) (l : List (String × Entry))
    (p : Path) (fs fs1 : FS)
    (h : createList (y :: x :: l) p fs = (none, fs1)) :
    ∃ fs2, createList (x :: y :: l) p fs = (none, fs2) ∧
      ∀ q, FS.lookup fs2 q = FS.lookup fs1 q := by
  obtain ⟨ny, cy⟩ := y
  obtain ⟨nx, cx⟩ := x
  rw [createList_eq_run] at h
  have h' : run (Entry.plan cy (p ++ [ny]) ++
      (Entry.plan cx (p ++ [nx]) ++ planList l p)) fs = (none, fs1) := h
  obtain ⟨fsa, hrA, hrest⟩ := run_append_split h'
  obtain ⟨fsb, hrB, hrL⟩ := run_append_split hrest
  have hsa : fsa = (Entry.plan cy (p ++ [ny])).reverse ++ fs := run_ok_state hrA
  have hsb : fsb = (Entry.plan cx (p ++ [nx])).reverse ++ fsa := run_ok_state hrB
  have hfreshB := run_ok_fresh hrB
  have hfreshA := run_ok_fresh hrA
  have hqxA : (p ++ [nx]) ∉ (Entry.plan cy (p ++ [ny])).map Prod.fst := by
    intro hmem
    have hlk := hfreshB (p ++ [nx]) (root_mem_plan_keys cx (p ++ [nx]))
    rw [hsa] at hlk
    have hnone := (FS.lookup_append_eq_none hlk).1
    obtain ⟨w, hw, hwq⟩ := List.mem_map.mp hmem
    exact (FS.lookup_eq_none _ _).mp hnone w (List.mem_reverse.mpr hw) hwq
  have hne : ny ≠ nx := by
    intro heq
    apply hqxA
    rw [← heq]
    exact root_mem_plan_keys cy (p ++ [ny])
  -- x's block succeeds directly on fs
  have hB1 : (run (Entry.plan cx (p ++ [nx])) fsa).1 = none := by rw [hrB]
  have hfrB : ∀ k ∈ (Entry.plan cx (p ++ [nx])).map Prod.fst,
      FS.lookup fs k = none := by
    intro k hk
    have hlk := hfreshB k hk
    rw [hsa] at hlk
    exact (FS.lookup_append_eq_none hlk).2
  have hparB : ∀ k ∈ (Entry.plan cx (p ++ [nx])).map Prod.fst,
      FS.lookup fs k.dropLast = FS.lookup fsa k.dropLast := by
    intro k hk
    obtain ⟨w, hw, hwk⟩ := List.mem_map.mp hk
    have hblw : (p ++ [nx]) <+: k := hwk ▸ plan_key_below cx (p ++ [nx]) w hw
    obtain ⟨t, rfl⟩ := below_extend hblw
    have hnoneA : FS.lookup (Entry.plan cy (p ++ [ny])).reverse
        ((p ++ nx :: t).dropLast) = none := by
      by_cases htnil : t = []
      · subst htnil
        have hdl : (p ++ nx :: ([] : List String)).dropLast = p := List.dropLast_concat
        rw [hdl]
        exact lookup_reverse_eq_none not_mem_plan_keys_parent
      · have hdl : (p ++ nx :: t).dropLast = (p ++ [nx]) ++ t.dropLast := by
          rw [List.dropLast_append_cons]
          cases t with
          | nil => exact absurd rfl htnil
          | cons a ts => simp
        rw [hdl]
        exact lookup_reverse_eq_none
          (not_mem_plan_keys_other_name hne (List.prefix_append _ _))
    rw [hsa, FS.lookup_append, hnoneA]
    simp [Option.or]
  have hBok := run_transfer hB1 hfrB hparB
  have hBeta : run (Entry.plan cx (p ++ [nx])) fs
      = (none, (run (Entry.plan cx (p ++ [nx])) fs).2) := by rw [← hBok]
  have hBfs : run (Entry.plan cx (p ++ [nx])) fs
      = (none, (Entry.plan cx (p ++ [nx])).reverse ++ fs) := by
    rw [hBeta, run_ok_state hBeta]
  -- y's block succeeds after x's block
  have hA1 : (run (Entry.plan cy (p ++ [ny])) fs).1 = none := by rw [hrA]
  have hfrA : ∀ k ∈ (Entry.plan cy (p ++ [ny])).map Prod.fst,
      FS.lookup ((Entry.plan cx (p ++ [nx])).reverse ++ fs) k = none := by
    intro k hk
    obtain ⟨w, hw, hwk⟩ := List.mem_map.mp hk
    have hblw : (p ++ [ny]) <+: k := hwk ▸ plan_key_below cy (p ++ [ny]) w hw
    rw [FS.lookup_append,
      lookup_reverse_eq_none (not_mem_plan_keys_other_name (Ne.symm hne) hblw)]
    simp [Option.or, hfreshA k hk]
  have hparA : ∀ k ∈ (Entry.plan cy (p ++ [ny])).map Prod.fst,
      FS.lookup ((Entry.plan cx (p ++ [nx])).reverse ++ fs) k.dropLast
        = FS.lookup fs k.dropLast := by
    intro k hk
    obtain ⟨w, hw, hwk⟩ := List.mem_map.mp hk
    have hblw : (p ++ [ny]) <+: k := hwk ▸ plan_key_below cy (p ++ [ny]) w hw
    obtain ⟨t, rfl⟩ := below_extend hblw
    have hnoneB : FS.lookup (Entry.plan cx (p ++ [nx])).reverse
        ((p ++ ny :: t).dropLast) = none := by
      by_cases htnil : t = []
      · subst htnil
        have hdl : (p ++ ny :: ([] : List String)).dropLast = p := List.dropLast_concat
        rw [hdl]
        exact lookup_reverse_eq_none not_mem_plan_keys_parent
      · have hdl : (p ++ ny :: t).dropLast = (p ++ [ny]) ++ t.dropLast := by
          rw [List.dropLast_append_cons]
          cases t with
          | nil => exact absurd rfl htnil
          | cons a ts => simp
        rw [hdl]
        exact lookup_reverse_eq_none
          (not_mem_plan_keys_other_name (Ne.symm hne) (List.prefix_append _ _))
    rw [FS.lookup_append, hnoneB]
    simp [Option.or]
  have hAok := run_transfer hA1 hfrA hparA
  have hAeta : run (Entry.plan cy (p ++ [ny]))
      ((Entry.plan cx (p ++ [nx])).reverse ++ fs)
      = (none, (run (Entry.plan cy (p ++ [ny]))
        ((Entry.plan cx (p ++ [nx])).reverse ++ fs)).2) := by
    rw [← hAok]
  have hAfs : run (Entry.plan cy (p ++ [ny]))
      ((Entry.plan cx (p ++ [nx])).reverse ++ fs)
      = (none, (Entry.plan cy (p ++ [ny])).reverse ++
          ((Entry.plan cx (p ++ [nx])).reverse ++ fs)) := by
    rw [hAeta, run_ok_state hAeta]
  -- the two interleavings are pointwise equal states
  have hequiv : ∀ q,
      FS.lookup ((Entry.plan cy (p ++ [ny])).reverse ++
        ((Entry.plan cx (p ++ [nx])).reverse ++ fs)) q
      = FS.lookup ((Entry.plan cx (p ++ [nx])).reverse ++
        ((Entry.plan cy (p ++ [ny])).reverse ++ fs)) q := by
    intro q
    rw [FS.lookup_append, FS.lookup_append, FS.lookup_append, FS.lookup_append]
    cases ha : FS.lookup (Entry.plan cy (p ++ [ny])).reverse q with
    | none => simp [Option.or]
    | some o =>
      have hmemq : q ∈ (Entry.plan cy (p ++ [ny])).map Prod.fst := by
        have hmem := FS.mem_of_lookup_eq_some ha
        rwa [List.map_reverse, List.mem_reverse] at hmem
      obtain ⟨w, hw, hwk⟩ := List.mem_map.mp hmemq
      have hblw : (p ++ [ny]) <+: q := hwk ▸ plan_key_below cy (p ++ [ny]) w hw
      rw [lookup_reverse_eq_none (not_mem_plan_keys_other_name (Ne.symm hne) hblw)]
      simp [Option.or]
  have hrL' := hrL
  rw [hsb, hsa] at hrL'
  obtain ⟨hst, hlk⟩ := @run_congr (planList l p) _ _ hequiv
  have hS1 : (run (planList l p) ((Entry.plan cy (p ++ [ny])).reverse ++
      ((Entry.plan cx (p ++ [nx])).reverse ++ fs))).1 = none := by
    rw [hst, hrL']
  have hS1full : run (planList l p) ((Entry.plan cy (p ++ [ny])).reverse ++
      ((Entry.plan cx (p ++ [nx])).reverse ++ fs))
      = (none, (run (planList l p) ((Entry.plan cy (p ++ [ny])).reverse ++
        ((Entry.plan cx (p ++ [nx])).reverse ++ fs))).2) := by
    rw [← hS1]
  refine ⟨(run (planList l p) ((Entry.plan cy (p ++ [ny])).reverse ++
      ((Entry.plan cx (p ++ [nx])).reverse ++ fs))).2, ?_, ?_⟩
  · rw [createList_eq_run]
    have hsteps : run (planList ((nx, cx) :: (ny, cy) :: l) p) fs
        = run (planList l p) ((Entry.plan cy (p ++ [ny])).reverse ++
          ((Entry.plan cx (p ++ [nx])).reverse ++ fs)) := by
      show run (Entry.plan cx (p ++ [nx]) ++
        (Entry.plan cy (p ++ [ny]) ++ planList l p)) fs = _
      rw [run_append_ok _ hBfs, run_append_ok _ hAfs]
    rw [hsteps]
    exact hS1full
  · intro q
    rw [hlk q, hrL']

theorem createList_perm {cs cs' : List (String × Entry)} (hperm : cs.Perm cs') (p : Path) :
    ∀ fs fs1, createList cs p fs = (none, fs1) →
      ∃ fs2, createList cs' p fs = (none, fs2) ∧
        ∀ q, FS.lookup fs2 q = FS.lookup fs1 q := by
  induction hperm with
  | nil => exact fun fs fs1 h => ⟨fs1, h, fun q => rfl⟩
  | cons z hp ih =>
    intro fs fs1 h
    obtain ⟨nz, cz⟩ := z
    simp only [createList] at h ⊢
    split at h
    next e2 fs2 hc => exact absurd h (by simp)
    next fs2 hc =>
      obtain ⟨fs3, h3, heq⟩ := ih fs2 fs1 h
      exact ⟨fs3, h3, heq⟩
  | swap a b l =>
    intro fs fs1 h
    exact createList_swap a b l p fs fs1 h
  | trans h₁ h₂ ih₁ ih₂ =>
    intro fs fs1 h
    obtain ⟨fs2, h2, heq2⟩ := ih₁ fs fs1 h
    obtain ⟨fs3, h3, heq3⟩ := ih₂ fs fs2 h2
    exact ⟨fs3, h3, fun q => (heq3 q).trans (heq2 q)⟩

/-- C7: sibling creations commute — if `Directory::create` succeeds with the
children in one iteration order, it also succeeds with any permutation of
them, and the two resulting filesystems are equal as maps: every path holds
the same object.  Each created child depends only on its own (name, child)
pair, never on the iteration order the `HashMap` happens to yield. -/
theorem dir_create_order_irrelevant (cs cs' : List (String × Entry))
    (hperm : cs.Perm cs') (p : Path) (fs fs' : FS)
    (h : Entry.create (Entry.dir cs) p fs = (none, fs')) :
    ∃ fs'', Entry.create (Entry.dir cs') p fs = (none, fs'') ∧
      ∀ q, FS.lookup fs'' q = FS.lookup fs' q := by
  simp only [Entry.create] at h ⊢
  split at h
  next e0 fsd hdir => exact absurd h (by simp)
  next fsd hdir =>
    obtain ⟨fs2, h2, heq⟩ := createList_perm hperm p fsd fs' h
    exact ⟨fs2, h2, heq⟩

/-- Witness for C7: the sibling files `a` and `b` under `d` in both iteration
orders produce map-equal filesystems. -/
theorem dir_create_order_irrelevant_witness :
    ∃ fs'', Entry.create (Entry.dir [("b", Entry.file "b"), ("a", Entry.file "a")]) ["d"]
        [([], FSObj.dir)] = (none, fs'') ∧
      ∀ q, FS.lookup fs'' q = FS.lookup
        [(["d", "b"], FSObj.file "b"), (["d", "a"], FSObj.file "a"),
         (["d"], FSObj.dir), ([], FSObj.dir)] q :=
  dir_create_order_irrelevant [("a", Entry.file "a"), ("b", Entry.file "b")]
    [("b", Entry.file "b"), ("a", Entry.file "a")]
    (List.Perm.swap ("b", Entry.file "b") ("a", Entry.file "a") [])
    ["d"] [([], FSObj.dir)]
    [(["d", "b"], FSObj.file "b"), (["d", "a"], FSObj.file "a"),
     (["d"], FSObj.dir), ([], FSObj.dir)]
    (by decide)

end FileSystem
